import Mathlib

/-!
Verification of the legal-documents-timeline backend processing pipeline.

This file gives a shallow embedding, in Lean 4, of the core pipeline of the
repository: the text chunker (`app/services/pdf_service.py`), the merge/sort
of extracted events (`app/services/timeline_service.py`), the LLM adapter
(`app/services/llm_service.py`) and the background orchestrator
(`app/workers/document_processor.py`), together with theorems settling the
specification claims about them.

Python strings are modelled as `List Char` (a Python `str` is a sequence of
code points).  External effects (database loads/saves, the filesystem, the
remote LLM API) are modelled as explicit oracle inputs, and the sequence of
document states written plus the set of timelines inserted are returned as
explicit data, so that frame and invariant properties can be stated.
-/

/-- Whitespace predicate matching Python `str.strip` / `str.isspace` on the
ASCII range: space, tab, newline, carriage return, vertical tab, form feed. -/
def pyIsSpace (c : Char) : Bool :=
  c == ' ' || c == '\t' || c == '\n' || c == '\r' ||
  c == Char.ofNat 11 || c == Char.ofNat 12

/-- Python `s.strip()`: remove leading and trailing whitespace. -/
def stripChars (s : List Char) : List Char :=
  ((s.dropWhile pyIsSpace).reverse.dropWhile pyIsSpace).reverse

/-- Python `text.rfind(" ", start, stop)` for a single-character needle and
`stop ≤ len(text)`: the highest index `i` with `start ≤ i < stop` and
`text[i] = ' '`, or `-1` when there is none.  The recursion scans backward
from `stop`, exactly as `rfind` searches from the right. -/
def rfindSpaceFrom (text : List Char) (start : Nat) : Nat → Int
  | 0 => -1
  | n + 1 =>
    if start ≤ n && text.getD n 'A' == ' ' then (n : Int)
    else rfindSpaceFrom text start n

/-- The updated `end` computed by one iteration of the loop in `chunk_text`
(`pdf_service.py` lines 46-51): `end = start + chunk_size`; if `end` is not
past the end of the text, `last_space = text.rfind(" ", start, end + 1)` and,
when `last_space > start`, `end = last_space + 1`. -/
def nextEnd (text : List Char) (csize : Nat) (start : Nat) : Nat :=
  if start + csize < text.length then
    if (start : Int) < rfindSpaceFrom text start (start + csize + 1) then
      (rfindSpaceFrom text start (start + csize + 1)).toNat + 1
    else start + csize
  else start + csize

/-- The `while start < len(text)` loop of `chunk_text`: at each step append
`text[start:end].strip()` (Python slicing clamps at the end of the list) and
continue from `end`.  `h : 0 < csize` records that the loop is only entered
after the `chunk_size <= 0` guard, which is what makes it terminate. -/
def chunkLoop (text : List Char) (csize : Nat) (h : 0 < csize) (start : Nat) :
    List (List Char) :=
  if _hlt : start < text.length then
    stripChars ((text.drop start).take (nextEnd text csize start - start))
      :: chunkLoop text csize h (nextEnd text csize start)
  else []
termination_by text.length - start
decreasing_by
  have hgt : start < nextEnd text csize start := by
    unfold nextEnd
    split
    · split
      · omega
      · omega
    · omega
  omega

/-- `chunk_text(text, chunk_size)` from `app/services/pdf_service.py`:
returns `[]` if the text is empty or `chunk_size <= 0`; otherwise runs the
greedy loop and then filters out chunks that became empty after stripping
(`[c for c in chunks if c]`). -/
def chunk_text (text : List Char) (chunk_size : Int) : List (List Char) :=
  if text.isEmpty then []
  else if hz : chunk_size ≤ 0 then []
  else (chunkLoop text chunk_size.toNat (by omega) 0).filter (fun c => !c.isEmpty)

example : chunk_text ['a', 'b', '\n', 'c', 'd'] 4 = [['a', 'b', '\n', 'c'], ['d']] := by
  simp [chunk_text, chunkLoop, nextEnd, rfindSpaceFrom, stripChars, List.dropWhile, pyIsSpace]

example : chunk_text [' '] 5 = [] := by
  simp [chunk_text, chunkLoop, nextEnd, rfindSpaceFrom, stripChars, List.dropWhile, pyIsSpace]

/-- One extracted timeline event (`app/models/timeline.py`, class `Event`):
an ISO date string, a description, an ordered list of party names, and a
significance string. -/
structure Event where
  date : String
  description : String
  involved_parties : List String
  significance : String
deriving DecidableEq, Repr

/-- The comparison used by `merged.sort(key=lambda e: e.date)`: ascending by
the `date` field under plain lexicographic string comparison. -/
def eventLe (e1 e2 : Event) : Bool :=
  decide (e1.date ≤ e2.date)

/-- `merge_and_sort_events` from `app/services/timeline_service.py`: the
per-chunk lists are concatenated in order (`merged.extend(events)` inside
`for events in all_events`), then sorted ascending by the `date` string.
Python `list.sort` is a stable ascending sort, so it is embedded as
`List.mergeSort`, which is proven stable in the Lean core library; a stable
sort is extensionally determined by the key order, so this is faithful. -/
def merge_and_sort_events (all_events : List (List Event)) : List Event :=
  all_events.flatten.mergeSort eventLe

/-- A Python value as produced by `json.loads` on a JSON document: the
result of parsing the (markdown-stripped) LLM response text in
`_parse_events_from_response`.  JSON numbers are modelled as integers; the
claims under verification do not depend on float rendering. -/
inductive PyVal where
  | str (s : String)
  | num (n : Int)
  | bool (b : Bool)
  | null
  | list (xs : List PyVal)
  | dict (kvs : List (String × PyVal))

/-- Python truthiness (`bool(v)`) on the modelled values: `None`, `False`,
`0`, the empty string, the empty list and the empty dict are falsy. -/
def truthy : PyVal → Bool
  | .str s => !(s.isEmpty)
  | .num n => n != 0
  | .bool b => b
  | .null => false
  | .list xs => !(xs.isEmpty)
  | .dict kvs => !(kvs.isEmpty)

/-- Python `repr` of a modelled value, used by `str` on containers.  String
escaping inside `repr` of a string is not modelled character by character;
the claims only depend on these renderings being the non-empty bracketed
forms Python produces. -/
def pyRepr : PyVal → String
  | .str s => "'" ++ s ++ "'"
  | .num n => toString n
  | .bool b => if b then "True" else "False"
  | .null => "None"
  | .list xs => "[" ++ String.intercalate ", " (xs.attach.map fun x => pyRepr x.1) ++ "]"
  | .dict kvs => "\x7b" ++
      String.intercalate ", "
        (kvs.attach.map fun kv => "'" ++ kv.1.1 ++ "': " ++ pyRepr kv.1.2) ++ "\x7d"
decreasing_by
  · have h := List.sizeOf_lt_of_mem x.2
    simp only [PyVal.list.sizeOf_spec]
    omega
  · have h := List.sizeOf_lt_of_mem kv.2
    obtain ⟨⟨a, b⟩, hk⟩ := kv
    simp only [Prod.mk.sizeOf_spec, PyVal.dict.sizeOf_spec] at h ⊢
    omega

/-- Python `str(v)` on the modelled values (`str` of a string is the string
itself; containers use `repr` of their elements). -/
def pyStr : PyVal → String
  | .str s => s
  | v => pyRepr v

/-- Python `item.get(key)` on a dict built by `json.loads`: the value for
`key`, with later duplicate keys overriding earlier ones, or `None` when the
key is absent. -/
def pyGet (kvs : List (String × PyVal)) (key : String) : PyVal :=
  match kvs.reverse.find? (fun kv => kv.1 == key) with
  | some kv => kv.2
  | none => .null

/-- Whether a modelled value is a Python dict (`isinstance(item, dict)`). -/
def pyIsDict : PyVal → Bool
  | .dict _ => true
  | _ => false

/-- Whether a modelled value is a Python list (`isinstance(v, list)`). -/
def pyIsList : PyVal → Bool
  | .list _ => true
  | _ => false

/-- The coercion applied to one dict item inside the loop of
`_parse_events_from_response` (`llm_service.py` lines 50-63):
`date_val = item.get("date") or "unknown"`, `desc = item.get("description")
or ""`, `parties = item.get("involved_parties")` replaced by `[]` unless it
is a list, `sig = item.get("significance") or ""`, each field then passed
through `str` (and each party through `str`). -/
def coerceItem (kvs : List (String × PyVal)) : Event :=
  { date := if truthy (pyGet kvs "date") then pyStr (pyGet kvs "date") else "unknown"
    description :=
      if truthy (pyGet kvs "description") then pyStr (pyGet kvs "description") else ""
    involved_parties :=
      match pyGet kvs "involved_parties" with
      | .list ps => ps.map pyStr
      | _ => []
    significance :=
      if truthy (pyGet kvs "significance") then pyStr (pyGet kvs "significance") else "" }

/-- The `for item in data` loop of `_parse_events_from_response`
(`llm_service.py` lines 47-63): skip items that are not dicts
(`continue`), coerce the rest in order. -/
def parseItems : List PyVal → List Event
  | [] => []
  | .dict kvs :: rest => coerceItem kvs :: parseItems rest
  | _ :: rest => parseItems rest

/-- Body of `_parse_events_from_response` after `json.loads` succeeded
(`llm_service.py` lines 43-64): a non-list result yields `[]`, a list is
traversed with non-dict items discarded and dict items coerced. -/
def parseData : PyVal → List Event
  | .list xs => parseItems xs
  | _ => []

/-- `_parse_events_from_response(raw)` from `app/services/llm_service.py`,
with the markdown-code-block stripping (lines 34-41) and `json.loads`
abstracted into the argument: `none` stands for a raw response on which
`json.loads` raised (`JSONDecodeError`/`TypeError`, caught on lines 65-67,
returning `[]`), `some v` for a response whose stripped text parsed to `v`. -/
def parse_events_from_response (loaded : Option PyVal) : List Event :=
  match loaded with
  | none => []
  | some data => parseData data

/-- `_mock_events` from `app/services/llm_service.py`: the fixed single
placeholder event returned whenever the real LLM is unavailable or fails. -/
def mock_events (_text_chunk : List Char) : List Event :=
  [{ date := "2023-01-15"
     description := "Sample event extracted from document (mock)."
     involved_parties := ["Party A", "Party B"]
     significance := "Mock significance for testing." }]

/-- Which of the environment-dependent branches one call of
`LLMService.extract_events_from_chunk` takes: the API key is unset or blank
(line 94), the `groq` package is missing (`ImportError`, line 113), the API
call raised (`except Exception`, line 116), or the call returned and its
content parsed to the given value (`none` when `json.loads` failed). -/
inductive GroqOutcome where
  | noApiKey
  | importError
  | apiError
  | response (content : Option PyVal)

/-- `LLMService.extract_events_from_chunk` from `app/services/llm_service.py`
(lines 89-118), with the environment-dependent branch taken modelled by the
`GroqOutcome` oracle: no key, a missing package, and an API exception all
fall back to `_mock_events`; a successful response is parsed and, when the
parse yields no events (`events if events else _mock_events(text_chunk)`),
the mock list is used instead. -/
def extract_events_from_chunk (outcome : GroqOutcome) (text_chunk : List Char) :
    List Event :=
  match outcome with
  | .noApiKey => mock_events text_chunk
  | .importError => mock_events text_chunk
  | .apiError => mock_events text_chunk
  | .response content =>
    let events := parse_events_from_response content
    if events.isEmpty then mock_events text_chunk else events

/-- Lifecycle states of a document (`app/models/document.py`,
`DocumentStatus`). -/
inductive DocumentStatus where
  | pending
  | processing
  | completed
  | failed
deriving DecidableEq, Repr

/-- The mutable part of a `Document` record that the orchestrator reads and
writes (`app/models/document.py`): the lifecycle status and the optional
error message.  The other fields (owner, filename, file path, timestamp) are
never written by the worker and are irrelevant to the claims. -/
structure Doc where
  status : DocumentStatus
  error_message : Option String
deriving DecidableEq, Repr

/-- Outcome of `extract_text_from_pdf` (`app/services/pdf_service.py`): the
file was missing (`FileNotFoundError`), some other exception was raised with
message `msg` (for example from `PyPDF2`), or extraction returned `text`. -/
inductive ExtractResult where
  | fileNotFound
  | extractError (msg : String)
  | ok (text : List Char)

/-- The external environment of one pipeline run: what text extraction does,
and which branch the LLM adapter takes for the `i`-th chunk. -/
structure PipelineEnv where
  extract : ExtractResult
  llm : Nat → GroqOutcome

/-- Observable result of one `process_document` invocation: the final state
of the document record (`none` when the document was not found), the
successive document states written via `save_changes` in order, and the
timelines inserted via `timeline.insert()` (each recorded by its event
list). -/
structure ProcResult where
  finalDoc : Option Doc
  savedStates : List Doc
  timelines : List (List Event)
deriving DecidableEq, Repr

/-- `process_document` from `app/workers/document_processor.py`, as a pure
function of the loaded document (`none` when `Document.get` found nothing)
and the external environment.  It mirrors the source line by line: the
not-found and not-`Pending` guards (lines 38-43), the write of `Processing`
(lines 46-47), the `ValueError("No text extracted from PDF")` raised on
empty or whitespace-only text (lines 53-54) and caught by the generic
handler (lines 82-86, which truncates `str(e)` to 500 characters), chunking
with `chunk_size=10_000` (line 56), the per-chunk LLM calls in order (lines
61-63), merge/sort (line 66), the timeline insert (lines 69-70), the
`Completed` write that clears `error_message` (lines 72-74), and the
`FileNotFoundError` handler (lines 77-81). -/
def process_document (doc? : Option Doc) (env : PipelineEnv) : ProcResult :=
  match doc? with
  | none => { finalDoc := none, savedStates := [], timelines := [] }
  | some doc =>
    if doc.status ≠ DocumentStatus.pending then
      { finalDoc := some doc, savedStates := [], timelines := [] }
    else
      let procDoc : Doc := { doc with status := DocumentStatus.processing }
      match env.extract with
      | .fileNotFound =>
        let failDoc : Doc :=
          { status := DocumentStatus.failed, error_message := some "PDF file not found" }
        { finalDoc := some failDoc, savedStates := [procDoc, failDoc], timelines := [] }
      | .extractError msg =>
        let failDoc : Doc :=
          { status := DocumentStatus.failed, error_message := some (msg.take 500) }
        { finalDoc := some failDoc, savedStates := [procDoc, failDoc], timelines := [] }
      | .ok text =>
        if stripChars text = [] then
          let failDoc : Doc :=
            { status := DocumentStatus.failed
              error_message := some (String.take "No text extracted from PDF" 500) }
          { finalDoc := some failDoc, savedStates := [procDoc, failDoc], timelines := [] }
        else
          let chunks := chunk_text text 10000
          let all_event_lists :=
            chunks.enum.map fun ic => extract_events_from_chunk (env.llm ic.1) ic.2
          let merged := merge_and_sort_events all_event_lists
          let doneDoc : Doc :=
            { status := DocumentStatus.completed, error_message := none }
          { finalDoc := some doneDoc
            savedStates := [procDoc, doneDoc]
            timelines := [merged] }

/-- Interleaving of whitespace fillers with chunks: `interleave ws cs` is
`ws[0] ++ cs[0] ++ ws[1] ++ cs[1] ++ ...`, used to state that the chunks
reconstruct the input once the whitespace trimmed at chunk boundaries is put
back.  When the chunk list is exhausted the current filler closes the text. -/
def interleave : List (List Char) → List (List Char) → List Char
  | [], _ => []
  | w :: _, [] => w
  | w :: ws, c :: cs => w ++ c ++ interleave ws cs

/-- Modelled from the amended reading of the chunk-boundary rule: the index
of the last space character `' '` (U+0020 only) at a position `i` with
`start ≤ i < stop`, found by scanning backward from `stop`, as an `Option`. -/
def lastSpacePos (text : List Char) (start : Nat) : Nat → Option Nat
  | 0 => none
  | n + 1 =>
    if start ≤ n && text.getD n 'A' == ' ' then some n
    else lastSpacePos text start n

/-- The amended cut rule, written from the amended claim: the raw edge is
`start + csize`; when the edge is not past the end of the text, the last
space at a position from `start` up to and including the edge itself is
sought, and if one is found strictly after `start` the cut is placed just
after it (the space stays with the left chunk); otherwise the cut is at the
raw edge. -/
def nextEndAmended (text : List Char) (csize start : Nat) : Nat :=
  if start + csize < text.length then
    match lastSpacePos text start (start + csize + 1) with
    | some p => if start < p then p + 1 else start + csize
    | none => start + csize
  else start + csize

/-- The greedy loop of the amended chunking description, advancing by
`nextEndAmended` and stripping each produced chunk. -/
def chunkAmendedLoop (text : List Char) (csize : Nat) (h : 0 < csize) (start : Nat) :
    List (List Char) :=
  if _hlt : start < text.length then
    stripChars ((text.drop start).take (nextEndAmended text csize start - start))
      :: chunkAmendedLoop text csize h (nextEndAmended text csize start)
  else []
termination_by text.length - start
decreasing_by
  have hgt : start < nextEndAmended text csize start := by
    unfold nextEndAmended
    split
    · split
      · split
        · omega
        · omega
      · omega
    · omega
  omega

/-- The full amended chunking function: empty text or a non-positive size
yields no chunks, otherwise the amended greedy loop runs from the start of
the text and chunks that strip to empty are dropped. -/
def chunk_amended (text : List Char) (chunk_size : Int) : List (List Char) :=
  if text.isEmpty then []
  else if hz : chunk_size ≤ 0 then []
  else (chunkAmendedLoop text chunk_size.toNat (by omega) 0).filter (fun c => !c.isEmpty)

/-- Modelled from the claim as stated: the index of the last character
satisfying the whitespace predicate (any whitespace, not only the space
character) at a position `i` with `start ≤ i < stop`. -/
def lastWsPos (text : List Char) (start : Nat) : Nat → Option Nat
  | 0 => none
  | n + 1 =>
    if start ≤ n && pyIsSpace (text.getD n 'A') then some n
    else lastWsPos text start n

/-- Modelled from the claim as stated: when the right edge of the window of
`csize` characters is not the end of the text, the cut is at the nearest
whitespace character preceding the edge within the window, and only when the
window holds no whitespace is the cut at the raw boundary.  Of the readings
of where exactly the cut falls, the one placing it just after the found
whitespace is used, which is the reading most favourable to the claim (and
the one matching the code when the found character is a space). -/
def nextEndClaim (text : List Char) (csize start : Nat) : Nat :=
  if start + csize < text.length then
    match lastWsPos text start (start + csize) with
    | some p => p + 1
    | none => start + csize
  else start + csize

/-- The greedy loop of the claim-as-stated chunking description.  The fuel
argument is a totality device only; it is started at `text.length`, which is
ample since every step advances the cut by at least one character. -/
def chunkClaimLoop (text : List Char) (csize start : Nat) : Nat → List (List Char)
  | 0 => []
  | fuel + 1 =>
    if start < text.length then
      stripChars ((text.drop start).take (nextEndClaim text csize start - start))
        :: chunkClaimLoop text csize (nextEndClaim text csize start) fuel
    else []

/-- The full chunking function described by the claim as stated, with the
same outer guards and empty-chunk filtering as the code. -/
def chunkClaim (text : List Char) (chunk_size : Int) : List (List Char) :=
  if text.isEmpty then []
  else if chunk_size ≤ 0 then []
  else (chunkClaimLoop text chunk_size.toNat 0 text.length).filter (fun c => !c.isEmpty)

/-- The documented invariant on a document record: `error_message` is set
if and only if `status == Failed`. -/
def invOk (d : Doc) : Prop :=
  d.status = DocumentStatus.failed ↔ d.error_message.isSome

instance (d : Doc) : Decidable (invOk d) := by
  unfold invOk
  infer_instance

/-- The loop of `chunk_text` always advances: the next value of `start` is
strictly larger, which is why the loop terminates for a positive size. -/
theorem nextEnd_gt (text : List Char) (csize : Nat) (h : 0 < csize) (start : Nat) :
    start < nextEnd text csize start := by
  unfold nextEnd
  split
  · split
    · omega
    · omega
  · omega

/-- C1: for every document whose status is not `Pending` at invocation time,
`process_document` is a no-op: the final record equals the loaded record, no
state is written, and no timeline is inserted. -/
theorem claim_C1_not_pending_noop (doc : Doc) (env : PipelineEnv)
    (h : doc.status ≠ DocumentStatus.pending) :
    process_document (some doc) env =
      { finalDoc := some doc, savedStates := [], timelines := [] } := by
  simp [process_document, h]

/-- Witness for C1 at a concrete `Completed` document and a concrete
environment. -/
theorem claim_C1_not_pending_noop_witness :
    (⟨DocumentStatus.completed, none⟩ : Doc).status ≠ DocumentStatus.pending ∧
    process_document (some ⟨DocumentStatus.completed, none⟩)
        ⟨ExtractResult.ok ['h', 'i'], fun _ => GroqOutcome.apiError⟩ =
      { finalDoc := some ⟨DocumentStatus.completed, none⟩
        savedStates := []
        timelines := [] } :=
  ⟨by decide, claim_C1_not_pending_noop _ _ (by decide)⟩

set_option maxRecDepth 4096 in
/-- C3: when text extraction returns empty or whitespace-only text for a
`Pending` document, the run ends `Failed`, the stored `error_message` is
exactly "No text extracted from PDF" (which contains the no-text-extracted
indication), and no timeline is inserted. -/
theorem claim_C3_empty_text_fails (doc : Doc) (env : PipelineEnv) (text : List Char)
    (hdoc : doc.status = DocumentStatus.pending)
    (hex : env.extract = ExtractResult.ok text)
    (hempty : stripChars text = []) :
    process_document (some doc) env =
      { finalDoc := some ⟨DocumentStatus.failed, some "No text extracted from PDF"⟩
        savedStates := [{ doc with status := DocumentStatus.processing },
          ⟨DocumentStatus.failed, some "No text extracted from PDF"⟩]
        timelines := [] } := by
  simp [process_document, hdoc, hex, hempty]
  rw [String.take_eq]
  decide

/-- Witness for C3: a whitespace-only extraction result on a concrete
pending document. -/
theorem claim_C3_empty_text_fails_witness :
    (⟨DocumentStatus.pending, none⟩ : Doc).status = DocumentStatus.pending ∧
    (⟨ExtractResult.ok [' '], fun _ => GroqOutcome.apiError⟩ : PipelineEnv).extract =
      ExtractResult.ok [' '] ∧
    stripChars [' '] = [] ∧
    process_document (some ⟨DocumentStatus.pending, none⟩)
        ⟨ExtractResult.ok [' '], fun _ => GroqOutcome.apiError⟩ =
      { finalDoc := some ⟨DocumentStatus.failed, some "No text extracted from PDF"⟩
        savedStates := [⟨DocumentStatus.processing, none⟩,
          ⟨DocumentStatus.failed, some "No text extracted from PDF"⟩]
        timelines := [] } :=
  ⟨rfl, rfl, by decide,
    claim_C3_empty_text_fails ⟨DocumentStatus.pending, none⟩ _ [' '] rfl rfl (by decide)⟩

/-- C7: along any orchestrator run starting from a record satisfying the
invariant (and carrying no message while still `Pending`, as the upload path
creates it), every document state written and the final state satisfy
`error_message` is set if and only if `status == Failed`: both `Failed`
writes store a message, the `Completed` write clears it, and the
`Processing` write carries none. -/
theorem claim_C7_error_message_invariant (doc : Doc) (env : PipelineEnv)
    (h1 : invOk doc)
    (h2 : doc.status = DocumentStatus.pending → doc.error_message = none) :
    (∀ d ∈ (process_document (some doc) env).savedStates, invOk d) ∧
    (∀ d, (process_document (some doc) env).finalDoc = some d → invOk d) := by
  by_cases hp : doc.status = DocumentStatus.pending
  · have he := h2 hp
    cases hex : env.extract with
    | fileNotFound =>
      simp [process_document, hp, hex, invOk, he]
    | extractError msg =>
      simp [process_document, hp, hex, invOk, he]
    | ok text =>
      by_cases ht : stripChars text = [] <;>
        simp [process_document, hp, hex, ht, invOk, he]
  · constructor
    · intro d hd
      simp [process_document, hp] at hd
    · intro d hd
      simp [process_document, hp] at hd
      simpa [hd] using h1

/-- Witness for C7 on a concrete pending document and a concrete failing
environment. -/
theorem claim_C7_error_message_invariant_witness :
    invOk ⟨DocumentStatus.pending, none⟩ ∧
    ((⟨DocumentStatus.pending, none⟩ : Doc).status = DocumentStatus.pending →
      (⟨DocumentStatus.pending, none⟩ : Doc).error_message = none) ∧
    ((∀ d ∈ (process_document (some ⟨DocumentStatus.pending, none⟩)
        ⟨ExtractResult.fileNotFound, fun _ => GroqOutcome.noApiKey⟩).savedStates, invOk d) ∧
     (∀ d, (process_document (some ⟨DocumentStatus.pending, none⟩)
        ⟨ExtractResult.fileNotFound, fun _ => GroqOutcome.noApiKey⟩).finalDoc = some d →
        invOk d)) :=
  ⟨by decide, fun _ => rfl,
    claim_C7_error_message_invariant _ _ (by decide) (fun _ => rfl)⟩

/-- Counterexample to C2 as stated: a run in which the event-extraction
backend errors on every chunk (`GroqOutcome.apiError`, the `except
Exception` branch of `extract_events_from_chunk`) does not fail at all: the
document ends `Completed` with a cleared `error_message` and a timeline is
inserted, because the adapter swallows the failure and substitutes
`_mock_events`. -/
theorem claim_C2_counterexample :
    process_document (some ⟨DocumentStatus.pending, none⟩)
        ⟨ExtractResult.ok ['h', 'i'], fun _ => GroqOutcome.apiError⟩ =
      { finalDoc := some ⟨DocumentStatus.completed, none⟩
        savedStates := [⟨DocumentStatus.processing, none⟩,
          ⟨DocumentStatus.completed, none⟩]
        timelines := [mock_events ['h', 'i']] } := by
  simp [process_document, chunk_text, chunkLoop, nextEnd, rfindSpaceFrom, stripChars,
    merge_and_sort_events, extract_events_from_chunk, parse_events_from_response,
    mock_events, List.dropWhile, pyIsSpace]

/-- C2 amended: a failure of the event-extraction backend for a chunk is
caught inside the adapter (`extract_events_from_chunk`) and replaced by the
fixed mock event list, so it never aborts the pipeline: for a `Pending`
document whose extracted text is not whitespace-only, the run ends
`Completed` and inserts exactly one timeline whatever the per-chunk backend
outcomes are. -/
theorem claim_C2_amended (doc : Doc) (env : PipelineEnv) (text : List Char)
    (hdoc : doc.status = DocumentStatus.pending)
    (hex : env.extract = ExtractResult.ok text)
    (ht : stripChars text ≠ []) :
    process_document (some doc) env =
      { finalDoc := some ⟨DocumentStatus.completed, none⟩
        savedStates := [{ doc with status := DocumentStatus.processing },
          ⟨DocumentStatus.completed, none⟩]
        timelines := [merge_and_sort_events ((chunk_text text 10000).enum.map
          fun ic => extract_events_from_chunk (env.llm ic.1) ic.2)] } := by
  simp [process_document, hdoc, hex, ht]

/-- Witness for the amended C2: every chunk call errors, yet the concrete
run completes. -/
theorem claim_C2_amended_witness :
    (⟨DocumentStatus.pending, none⟩ : Doc).status = DocumentStatus.pending ∧
    (⟨ExtractResult.ok ['h', 'i'], fun _ => GroqOutcome.apiError⟩ : PipelineEnv).extract =
      ExtractResult.ok ['h', 'i'] ∧
    stripChars ['h', 'i'] ≠ [] ∧
    process_document (some ⟨DocumentStatus.pending, none⟩)
        ⟨ExtractResult.ok ['h', 'i'], fun _ => GroqOutcome.apiError⟩ =
      { finalDoc := some ⟨DocumentStatus.completed, none⟩
        savedStates := [⟨DocumentStatus.processing, none⟩,
          ⟨DocumentStatus.completed, none⟩]
        timelines := [merge_and_sort_events ((chunk_text ['h', 'i'] 10000).enum.map
          fun ic => extract_events_from_chunk
            ((fun _ => GroqOutcome.apiError) ic.1) ic.2)] } :=
  ⟨rfl, rfl, by decide,
    claim_C2_amended ⟨DocumentStatus.pending, none⟩ _ ['h', 'i'] rfl rfl (by decide)⟩

/-- Counterexample to C9 as stated: the single-space text is non-empty and
shorter than the chunk size 5, yet `chunk_text` produces zero chunks, not
one, because the lone chunk strips to the empty string and is filtered out. -/
theorem claim_C9_counterexample :
    ([' '] : List Char) ≠ [] ∧
    (([' '] : List Char).length : Int) < 5 ∧
    chunk_text [' '] 5 = [] ∧
    (chunk_text [' '] 5).length ≠ 1 := by
  have h : chunk_text [' '] 5 = [] := by
    simp [chunk_text, chunkLoop, nextEnd, rfindSpaceFrom, stripChars, List.dropWhile,
      pyIsSpace]
  exact ⟨by decide, by decide, h, by rw [h]; decide⟩

/-- C9 amended: for every input text shorter than the chunk size whose
trimmed form is non-empty (equivalently, the text holds at least one
non-whitespace character), `chunk_text` produces exactly one chunk, equal to
the input trimmed of leading and trailing whitespace; a non-empty but
whitespace-only input instead produces no chunks. -/
theorem claim_C9_amended (text : List Char) (S : Int)
    (h1 : stripChars text ≠ [])
    (h2 : (text.length : Int) < S) :
    chunk_text text S = [stripChars text] := by
  have htx : text ≠ [] := by
    intro h
    subst h
    exact h1 rfl
  have hlen : 0 < text.length := List.length_pos.mpr htx
  have hS0 : ¬ S ≤ 0 := by omega
  have hcs : text.length < S.toNat := by omega
  unfold chunk_text
  rw [if_neg (by simpa [List.isEmpty_iff] using htx), dif_neg hS0]
  rw [chunkLoop, dif_pos hlen]
  have hne : nextEnd text S.toNat 0 = S.toNat := by
    unfold nextEnd
    rw [if_neg (by omega)]
    omega
  rw [hne]
  rw [chunkLoop, dif_neg (by omega)]
  rw [List.drop_zero, Nat.sub_zero, List.take_of_length_le (by omega)]
  have hie : (stripChars text).isEmpty = false := by
    simpa [List.isEmpty_iff] using h1
  simp [List.filter, hie]

/-- Witness for the amended C9 at a concrete two-character text. -/
theorem claim_C9_amended_witness :
    stripChars ['a', 'b'] ≠ [] ∧
    ((['a', 'b'] : List Char).length : Int) < 5 ∧
    chunk_text ['a', 'b'] 5 = [stripChars ['a', 'b']] :=
  ⟨by decide, by decide, claim_C9_amended ['a', 'b'] 5 (by decide) (by decide)⟩

/-- The `-1`-sentinel backward search of the code and the `Option`-valued
backward search of the amended description agree. -/
theorem rfindSpaceFrom_eq_lastSpacePos (text : List Char) (start : Nat) :
    ∀ stop, rfindSpaceFrom text start stop =
      match lastSpacePos text start stop with
      | some p => (p : Int)
      | none => -1 := by
  intro stop
  induction stop with
  | zero => rfl
  | succ n ih =>
    unfold rfindSpaceFrom lastSpacePos
    split
    · rfl
    · exact ih

/-- A backward search hit lies in the searched range. -/
theorem lastSpacePos_bounds (text : List Char) (start : Nat) :
    ∀ stop p, lastSpacePos text start stop = some p → start ≤ p ∧ p < stop := by
  intro stop
  induction stop with
  | zero => intro p hp; simp [lastSpacePos] at hp
  | succ n ih =>
    intro p hp
    unfold lastSpacePos at hp
    split at hp
    · rename_i hcond
      cases hp
      simp at hcond
      omega
    · have := ih p hp
      omega

/-- The cut position computed by the code equals the cut position of the
amended description. -/
theorem nextEnd_eq_amended (text : List Char) (csize start : Nat) :
    nextEnd text csize start = nextEndAmended text csize start := by
  unfold nextEnd nextEndAmended
  by_cases hout : start + csize < text.length
  · rw [if_pos hout, if_pos hout, rfindSpaceFrom_eq_lastSpacePos]
    cases hls : lastSpacePos text start (start + csize + 1) with
    | none =>
      show (if (start : Int) < -1 then ((-1 : Int)).toNat + 1 else start + csize) =
        start + csize
      rw [if_neg (by omega)]
    | some p =>
      show (if (start : Int) < (p : Int) then ((p : Int)).toNat + 1 else start + csize) =
        if start < p then p + 1 else start + csize
      by_cases hsp : start < p
      · rw [if_pos (by exact_mod_cast hsp), if_pos hsp]
        simp
      · rw [if_neg (by exact_mod_cast hsp), if_neg hsp]
  · rw [if_neg hout, if_neg hout]

/-- The greedy loop of the code equals the greedy loop of the amended
description. -/
theorem chunkLoop_eq_amended (text : List Char) (csize : Nat) (h : 0 < csize) :
    ∀ start, chunkLoop text csize h start = chunkAmendedLoop text csize h start := by
  intro start
  by_cases hlt : start < text.length
  · rw [chunkLoop, chunkAmendedLoop, dif_pos hlt, dif_pos hlt, nextEnd_eq_amended,
      chunkLoop_eq_amended text csize h (nextEndAmended text csize start)]
  · rw [chunkLoop, chunkAmendedLoop, dif_neg hlt, dif_neg hlt]
termination_by start => text.length - start
decreasing_by
  have := nextEnd_gt text csize h start
  rw [nextEnd_eq_amended] at this
  omega

/-- C4 amended: the chunker segments greedily left to right with a window of
`maxSize` characters, but the cut rule is the one implemented by the code:
only the space character `' '` (U+0020) is considered, never other
whitespace; the backward search ranges from the window start up to and
including the raw edge itself (one position past the window); the cut is
placed just after the found space, which stays with the left chunk; and a
space found exactly at the window start does not move the cut, which then
stays at the raw boundary. -/
theorem claim_C4_amended (text : List Char) (chunk_size : Int) :
    chunk_text text chunk_size = chunk_amended text chunk_size := by
  unfold chunk_text chunk_amended
  by_cases he : text.isEmpty
  · rw [if_pos he, if_pos he]
  · rw [if_neg he, if_neg he]
    by_cases hz : chunk_size ≤ 0
    · rw [dif_pos hz, dif_pos hz]
    · rw [dif_neg hz, dif_neg hz, chunkLoop_eq_amended]

/-- Counterexample to C4 as stated: in the text `"ab\ncd"` with window size
4 the window's right edge (index 4) is not the end of the text and the
window contains a whitespace character (the newline at index 2), yet the
code cuts at the raw boundary, splitting the word `"cd"`: `chunk_text`
returns `["ab\nc", "d"]` where the claimed whitespace-respecting rule
returns `["ab", "cd"]`.  The code searches only for the space character
`' '`, so the newline is not a cut point. -/
theorem claim_C4_counterexample :
    chunk_text ['a', 'b', '\n', 'c', 'd'] 4 = [['a', 'b', '\n', 'c'], ['d']] ∧
    chunkClaim ['a', 'b', '\n', 'c', 'd'] 4 = [['a', 'b'], ['c', 'd']] ∧
    pyIsSpace '\n' = true ∧
    chunk_text ['a', 'b', '\n', 'c', 'd'] 4 ≠ chunkClaim ['a', 'b', '\n', 'c', 'd'] 4 := by
  have h : chunk_text ['a', 'b', '\n', 'c', 'd'] 4 = [['a', 'b', '\n', 'c'], ['d']] := by
    simp [chunk_text, chunkLoop, nextEnd, rfindSpaceFrom, stripChars, List.dropWhile,
      pyIsSpace]
  refine ⟨h, by decide, by decide, ?_⟩
  rw [h]
  decide

/-- Prepending extra characters to the first filler of an interleaving
prepends them to the interleaving. -/
theorem interleave_wprepend (b w : List Char) (ws cs : List (List Char)) :
    interleave ((b ++ w) :: ws) cs = b ++ interleave (w :: ws) cs := by
  cases cs with
  | nil => rfl
  | cons c cs => simp [interleave]

/-- Stripping decomposes a string into whitespace, its stripped core, and
whitespace. -/
theorem stripChars_decomp (s : List Char) :
    ∃ a b, s = a ++ stripChars s ++ b ∧
      (∀ c ∈ a, pyIsSpace c) ∧ (∀ c ∈ b, pyIsSpace c) := by
  refine ⟨s.takeWhile pyIsSpace,
    ((s.dropWhile pyIsSpace).reverse.takeWhile pyIsSpace).reverse, ?_, ?_, ?_⟩
  · unfold stripChars
    conv_lhs => rw [← List.takeWhile_append_dropWhile (p := pyIsSpace) (l := s)]
    rw [List.append_assoc]
    congr 1
    conv_lhs => rw [← List.reverse_reverse (s.dropWhile pyIsSpace),
      ← List.takeWhile_append_dropWhile (p := pyIsSpace)
        (l := (s.dropWhile pyIsSpace).reverse)]
    rw [List.reverse_append]
  · intro c hc
    exact List.mem_takeWhile_imp hc
  · intro c hc
    rw [List.mem_reverse] at hc
    exact List.mem_takeWhile_imp hc

/-- A string all of whose characters are whitespace strips to the empty
string. -/
theorem stripChars_eq_nil_of_forall (s : List Char) (h : ∀ c ∈ s, pyIsSpace c) :
    stripChars s = [] := by
  unfold stripChars
  rw [List.dropWhile_eq_nil_iff.mpr h]
  rfl

/-- Conversely, if a string strips to the empty string then all its
characters are whitespace. -/
theorem forall_space_of_stripChars_eq_nil (s : List Char) (h : stripChars s = []) :
    ∀ c ∈ s, pyIsSpace c := by
  obtain ⟨a, b, hdec, ha, hb⟩ := stripChars_decomp s
  rw [h] at hdec
  intro c hc
  rw [hdec] at hc
  simp at hc
  rcases hc with hc | hc
  · exact ha c hc
  · exact hb c hc

/-- The chunks produced by the loop of `chunk_text` from position `start`,
interleaved with suitable whitespace-only fillers, reconstruct the text from
position `start` on. -/
theorem chunkLoop_interleave (text : List Char) (csize : Nat) (h : 0 < csize) :
    ∀ start, ∃ ws, ws.length = (chunkLoop text csize h start).length + 1 ∧
      (∀ w ∈ ws, ∀ c ∈ w, pyIsSpace c) ∧
      interleave ws (chunkLoop text csize h start) = text.drop start := by
  intro start
  by_cases hlt : start < text.length
  · obtain ⟨ws', hlen', hws', hint'⟩ :=
      chunkLoop_interleave text csize h (nextEnd text csize start)
    obtain ⟨w0, wtail, rfl⟩ : ∃ w0 wtail, ws' = w0 :: wtail := by
      cases ws' with
      | nil => simp at hlen'
      | cons a l => exact ⟨a, l, rfl⟩
    obtain ⟨a, b, hdecomp, ha, hb⟩ :=
      stripChars_decomp ((text.drop start).take (nextEnd text csize start - start))
    refine ⟨a :: (b ++ w0) :: wtail, ?_, ?_, ?_⟩
    · rw [chunkLoop, dif_pos hlt]
      simp only [List.length_cons] at hlen' ⊢
      omega
    · intro w hw
      simp only [List.mem_cons] at hw
      rcases hw with rfl | rfl | hw
      · exact ha
      · intro c hc
        rcases List.mem_append.mp hc with hc | hc
        · exact hb c hc
        · exact hws' w0 (List.mem_cons_self _ _) c hc
      · exact hws' w (List.mem_cons_of_mem _ hw)
    · rw [chunkLoop, dif_pos hlt]
      rw [interleave, interleave_wprepend, hint']
      have hstep : nextEnd text csize start - start + start = nextEnd text csize start := by
        have := nextEnd_gt text csize h start
        omega
      have hsplit : (text.drop start).take (nextEnd text csize start - start) ++
          text.drop (nextEnd text csize start) = text.drop start := by
        conv_rhs => rw [← List.take_append_drop (nextEnd text csize start - start)
          (text.drop start)]
        rw [List.drop_drop, Nat.add_comm, hstep]
      conv_rhs => rw [← hsplit]
      conv_rhs => rw [hdecomp]
      simp [List.append_assoc]
  · refine ⟨[[]], ?_, ?_, ?_⟩
    · rw [chunkLoop, dif_neg hlt]
      rfl
    · intro w hw
      simp only [List.mem_cons, List.not_mem_nil, or_false] at hw
      subst hw
      intro c hc
      simp at hc
    · rw [chunkLoop, dif_neg hlt]
      show ([] : List Char) = text.drop start
      rw [List.drop_eq_nil_of_le (by omega)]
termination_by start => text.length - start
decreasing_by
  have := nextEnd_gt text csize h start
  omega

/-- Dropping the chunks that strip to empty preserves reconstructability:
their whitespace content is absorbed into the neighbouring fillers. -/
theorem interleave_filter :
    ∀ (cs ws : List (List Char)) (t : List Char),
      ws.length = cs.length + 1 →
      (∀ w ∈ ws, ∀ c ∈ w, pyIsSpace c) →
      interleave ws cs = t →
      ∃ ws2, ws2.length = (cs.filter (fun c => !c.isEmpty)).length + 1 ∧
        (∀ w ∈ ws2, ∀ c ∈ w, pyIsSpace c) ∧
        interleave ws2 (cs.filter (fun c => !c.isEmpty)) = t := by
  intro cs
  induction cs with
  | nil =>
    intro ws t hlen hws hint
    exact ⟨ws, hlen, hws, hint⟩
  | cons c cs ih =>
    intro ws t hlen hws hint
    obtain ⟨w0, ws', rfl⟩ : ∃ w0 ws', ws = w0 :: ws' := by
      cases ws with
      | nil => simp at hlen
      | cons a l => exact ⟨a, l, rfl⟩
    have hlen' : ws'.length = cs.length + 1 := by
      simpa using hlen
    have hws' : ∀ w ∈ ws', ∀ ch ∈ w, pyIsSpace ch :=
      fun w hw => hws w (List.mem_cons_of_mem _ hw)
    rw [interleave] at hint
    by_cases hce : c.isEmpty
    · have hc : c = [] := List.isEmpty_iff.mp hce
      subst hc
      obtain ⟨ws2', hlen2, hws2, hint2⟩ :=
        ih ws' (interleave ws' cs) hlen' hws' rfl
      obtain ⟨v0, vtail, rfl⟩ : ∃ v0 vtail, ws2' = v0 :: vtail := by
        cases ws2' with
        | nil => simp at hlen2
        | cons a l => exact ⟨a, l, rfl⟩
      refine ⟨(w0 ++ v0) :: vtail, ?_, ?_, ?_⟩
      · simpa [List.filter] using hlen2
      · intro w hw
        simp only [List.mem_cons] at hw
        rcases hw with rfl | hw
        · intro ch hch
          rcases List.mem_append.mp hch with hch | hch
          · exact hws w0 (List.mem_cons_self _ _) ch hch
          · exact hws2 v0 (List.mem_cons_self _ _) ch hch
        · exact hws2 w (List.mem_cons_of_mem _ hw)
      · show interleave ((w0 ++ v0) :: vtail) (List.filter (fun c => !c.isEmpty) ([] :: cs)) = t
        rw [List.filter]
        show interleave ((w0 ++ v0) :: vtail) (cs.filter (fun c => !c.isEmpty)) = t
        rw [interleave_wprepend, hint2]
        simpa using hint
    · have hcb : (!c.isEmpty) = true := by
        simpa using hce
      obtain ⟨ws2', hlen2, hws2, hint2⟩ :=
        ih ws' (interleave ws' cs) hlen' hws' rfl
      refine ⟨w0 :: ws2', ?_, ?_, ?_⟩
      · rw [List.filter_cons, if_pos hcb]
        simp only [List.length_cons] at hlen2 ⊢
        omega
      · intro w hw
        simp only [List.mem_cons] at hw
        rcases hw with rfl | hw
        · exact hws w (List.mem_cons_self _ _)
        · exact hws2 w hw
      · rw [List.filter_cons, if_pos hcb, interleave, hint2]
        exact hint

/-- The chunks of `chunk_text`, interleaved with whitespace-only fillers,
reconstruct the whole input text. -/
theorem chunk_text_interleave (text : List Char) (S : Int) (hS : 0 < S) :
    ∃ ws, ws.length = (chunk_text text S).length + 1 ∧
      (∀ w ∈ ws, ∀ c ∈ w, pyIsSpace c) ∧
      interleave ws (chunk_text text S) = text := by
  unfold chunk_text
  by_cases hemp : text.isEmpty
  · rw [if_pos hemp]
    have htx : text = [] := List.isEmpty_iff.mp hemp
    subst htx
    exact ⟨[[]], rfl, by intro w hw; simp at hw; subst hw; intro c hc; simp at hc, rfl⟩
  · rw [if_neg hemp, dif_neg (by omega)]
    obtain ⟨ws, hlen, hws, hint⟩ := chunkLoop_interleave text S.toNat (by omega) 0
    rw [List.drop_zero] at hint
    exact interleave_filter _ ws text hlen hws hint

/-- No chunk produced by `chunk_text` is the empty string. -/
theorem chunk_text_mem_ne_nil (text : List Char) (S : Int) :
    ∀ c ∈ chunk_text text S, c ≠ [] := by
  unfold chunk_text
  intro c hc
  split at hc
  · simp at hc
  · split at hc
    · simp at hc
    · have := List.of_mem_filter hc
      simpa [List.isEmpty_iff] using this

/-- C5: for every input text and every chunk size `S > 0`, the chunks of
`chunk_text text S` reconstruct the original text once the whitespace
trimmed away at chunk boundaries (including chunks dropped for being
whitespace-only) is reinserted between them, and no produced chunk is the
empty string. -/
theorem claim_C5_reconstruction (text : List Char) (S : Int) (hS : 0 < S) :
    (∀ c ∈ chunk_text text S, c ≠ []) ∧
    ∃ ws, ws.length = (chunk_text text S).length + 1 ∧
      (∀ w ∈ ws, ∀ c ∈ w, pyIsSpace c) ∧
      interleave ws (chunk_text text S) = text :=
  ⟨chunk_text_mem_ne_nil text S, chunk_text_interleave text S hS⟩

/-- Witness for C5 at a concrete text containing an internal space and a
chunk size that splits it. -/
theorem claim_C5_reconstruction_witness :
    (0 : Int) < 2 ∧
    ((∀ c ∈ chunk_text ['a', ' ', 'b', 'c'] 2, c ≠ []) ∧
     ∃ ws, ws.length = (chunk_text ['a', ' ', 'b', 'c'] 2).length + 1 ∧
       (∀ w ∈ ws, ∀ c ∈ w, pyIsSpace c) ∧
       interleave ws (chunk_text ['a', ' ', 'b', 'c'] 2) = ['a', ' ', 'b', 'c']) :=
  ⟨by decide, claim_C5_reconstruction ['a', ' ', 'b', 'c'] 2 (by decide)⟩


/-- The date comparison is transitive. -/
theorem eventLe_trans : ∀ a b c : Event, eventLe a b → eventLe b c → eventLe a c := by
  intro a b c hab hbc
  simp only [eventLe, decide_eq_true_eq] at hab hbc ⊢
  exact le_trans hab hbc

/-- The date comparison is total. -/
theorem eventLe_total : ∀ a b : Event, eventLe a b || eventLe b a := by
  intro a b
  simp only [eventLe]
  rcases le_total a.date b.date with h | h <;> simp [h]

/-- Stability of the merge/sort, phrased through filtering: restricted to
the events carrying any fixed date string, the output of
`merge_and_sort_events` is exactly the concatenated input in its original
order. -/
theorem merge_filter_stable (ls : List (List Event)) (d : String) :
    (merge_and_sort_events ls).filter (fun e => e.date == d) =
      ls.flatten.filter (fun e => e.date == d) := by
  have hpA : ∀ e ∈ ls.flatten.filter (fun e => e.date == d), (e.date == d) = true :=
    fun e he => (List.mem_filter.mp he).2
  have hAp : (ls.flatten.filter (fun e => e.date == d)).Pairwise
      (fun a b => eventLe a b = true) := by
    apply List.pairwise_of_forall_mem_list
    intro a ha b hb
    have ha' : a.date = d := by simpa using hpA a ha
    have hb' : b.date = d := by simpa using hpA b hb
    simp [eventLe, ha', hb']
  have h1 : List.Sublist (ls.flatten.filter (fun e => e.date == d))
      (merge_and_sort_events ls) := by
    unfold merge_and_sort_events
    exact List.sublist_mergeSort eventLe_trans eventLe_total hAp (List.filter_sublist _)
  have h2 : List.Sublist (ls.flatten.filter (fun e => e.date == d))
      ((merge_and_sort_events ls).filter (fun e => e.date == d)) := by
    have h3 := h1.filter (fun e => e.date == d)
    rwa [List.filter_eq_self.mpr hpA] at h3
  have h4 : List.Perm ((merge_and_sort_events ls).filter (fun e => e.date == d))
      (ls.flatten.filter (fun e => e.date == d)) := by
    unfold merge_and_sort_events
    exact (List.mergeSort_perm _ _).filter _
  exact (h2.eq_of_length h4.length_eq.symm).symm

/-- C6: `merge_and_sort_events` concatenates the per-chunk lists in chunk
order and stably sorts by the `date` string: the output is a permutation of
the chunk-order concatenation, it is sorted by plain string comparison on
`date`, and for every fixed date string the events carrying it appear in
exactly their chunk-then-position order from the concatenated input (which
is stability: two events with equal date strings keep their relative
order). -/
theorem claim_C6_stable_merge (ls : List (List Event)) :
    List.Perm (merge_and_sort_events ls) ls.flatten ∧
    (merge_and_sort_events ls).Pairwise (fun a b => a.date ≤ b.date) ∧
    ∀ d : String, (merge_and_sort_events ls).filter (fun e => e.date == d) =
      ls.flatten.filter (fun e => e.date == d) := by
  refine ⟨List.mergeSort_perm _ _, ?_, fun d => merge_filter_stable ls d⟩
  have h := @List.sorted_mergeSort Event eventLe eventLe_trans eventLe_total ls.flatten
  exact h.imp (by intro a b hab; simpa [eventLe] using hab)

/-- The item loop of `_parse_events_from_response` is exactly filtering to
dict items and coercing each one. -/
theorem parseItems_eq_filterMap (xs : List PyVal) :
    parseItems xs = xs.filterMap (fun v =>
      match v with
      | PyVal.dict kvs => some (coerceItem kvs)
      | _ => none) := by
  induction xs with
  | nil => rfl
  | cons v rest ih =>
    cases v <;> simp [parseItems, List.filterMap_cons, ih]

/-- C8: the parsing/sanitization step of the adapter yields only
fully-populated events and discards malformed entries.  A response that is
not a JSON list yields no events; a JSON list yields exactly the coercions
of its dict items, with non-dict items discarded; a response that failed to
parse yields no events; and the coercion fills every field, defaulting
`date` to the literal string "unknown" when the raw value is absent or
falsy, `involved_parties` to the empty list when the raw value is not a
list, and `significance` to the empty string when the raw value is absent or
falsy, while passing a list of parties through `str` elementwise. -/
theorem claim_C8_sanitization :
    (∀ data : PyVal, pyIsList data = false → parseData data = []) ∧
    (∀ xs : List PyVal, parseData (PyVal.list xs) = xs.filterMap (fun v =>
      match v with
      | PyVal.dict kvs => some (coerceItem kvs)
      | _ => none)) ∧
    parse_events_from_response none = [] ∧
    (∀ kvs, truthy (pyGet kvs "date") = false → (coerceItem kvs).date = "unknown") ∧
    (∀ kvs, pyIsList (pyGet kvs "involved_parties") = false →
      (coerceItem kvs).involved_parties = []) ∧
    (∀ kvs ps, pyGet kvs "involved_parties" = PyVal.list ps →
      (coerceItem kvs).involved_parties = ps.map pyStr) ∧
    (∀ kvs, truthy (pyGet kvs "significance") = false →
      (coerceItem kvs).significance = "") := by
  refine ⟨?_, ?_, rfl, ?_, ?_, ?_, ?_⟩
  · intro data h
    cases data <;> first
      | rfl
      | simp [pyIsList] at h
  · intro xs
    simp [parseData, parseItems_eq_filterMap]
  · intro kvs h
    simp [coerceItem, h]
  · intro kvs h
    cases hg : pyGet kvs "involved_parties" with
    | str s => simp [coerceItem, hg]
    | num n => simp [coerceItem, hg]
    | bool b => simp [coerceItem, hg]
    | null => simp [coerceItem, hg]
    | list xs => exact absurd h (by simp [hg, pyIsList])
    | dict kvs2 => simp [coerceItem, hg]
  · intro kvs ps h
    simp [coerceItem, h]
  · intro kvs h
    simp [coerceItem, h]

/-- Witness for C8 at concrete malformed inputs: a non-list response, a
parse failure, and an item dict missing every field. -/
theorem claim_C8_sanitization_witness :
    pyIsList (PyVal.str "oops") = false ∧
    parseData (PyVal.str "oops") = [] ∧
    parse_events_from_response none = [] ∧
    truthy (pyGet [] "date") = false ∧
    (coerceItem []).date = "unknown" ∧
    pyIsList (pyGet [] "involved_parties") = false ∧
    (coerceItem []).involved_parties = [] ∧
    truthy (pyGet [] "significance") = false ∧
    (coerceItem []).significance = "" :=
  ⟨rfl,
    claim_C8_sanitization.1 (PyVal.str "oops") rfl,
    claim_C8_sanitization.2.2.1,
    rfl,
    claim_C8_sanitization.2.2.2.1 [] rfl,
    rfl,
    claim_C8_sanitization.2.2.2.2.1 [] rfl,
    rfl,
    claim_C8_sanitization.2.2.2.2.2.2 [] rfl⟩

/-- Every branch of the LLM adapter returns a non-empty event list. -/
theorem extract_events_ne_nil (oc : GroqOutcome) (chunk : List Char) :
    extract_events_from_chunk oc chunk ≠ [] := by
  cases oc with
  | noApiKey => simp [extract_events_from_chunk, mock_events]
  | importError => simp [extract_events_from_chunk, mock_events]
  | apiError => simp [extract_events_from_chunk, mock_events]
  | response content =>
    unfold extract_events_from_chunk
    by_cases hp : (parse_events_from_response content).isEmpty
    · simp [hp, mock_events]
    · simp [hp]
      exact fun hnil => hp (by simp [hnil])

/-- A text that does not strip to empty produces at least one chunk. -/
theorem chunk_text_ne_nil_of_strip (text : List Char) (S : Int) (hS : 0 < S)
    (h : stripChars text ≠ []) : chunk_text text S ≠ [] := by
  intro hc
  obtain ⟨ws, hlen, hws, hint⟩ := chunk_text_interleave text S hS
  rw [hc] at hlen hint
  obtain ⟨w0, wt, rfl⟩ : ∃ w0 wt, ws = w0 :: wt := by
    cases ws with
    | nil => simp at hlen
    | cons a l => exact ⟨a, l, rfl⟩
  have htext : text = w0 := by
    rw [← hint]
    rfl
  apply h
  apply stripChars_eq_nil_of_forall
  intro c hcm
  rw [htext] at hcm
  exact hws w0 (List.mem_cons_self _ _) c hcm

/-- C10: `extract_events_from_chunk` never returns the empty list — an
empty parse result, a missing API key, a missing client library, and any
backend exception are all replaced by the fixed mock event — and
consequently a run that inserts a timeline always inserts a non-empty one,
so a `Completed` document with zero events could only arise from a run with
zero chunks, which for a run that got past the empty-text guard never
happens. -/
theorem claim_C10_never_empty :
    (∀ (oc : GroqOutcome) (chunk : List Char),
      extract_events_from_chunk oc chunk ≠ []) ∧
    (∀ (doc : Doc) (env : PipelineEnv) (ev : List Event),
      (process_document (some doc) env).timelines = [ev] → ev ≠ []) := by
  refine ⟨extract_events_ne_nil, ?_⟩
  intro doc env ev htl hev
  subst hev
  by_cases hp : doc.status = DocumentStatus.pending
  · cases hex : env.extract with
    | fileNotFound => simp [process_document, hp, hex] at htl
    | extractError msg => simp [process_document, hp, hex] at htl
    | ok text =>
      by_cases hst : stripChars text = []
      · simp [process_document, hp, hex, hst] at htl
      · simp [process_document, hp, hex, hst] at htl
        have hchunks : chunk_text text 10000 ≠ [] :=
          chunk_text_ne_nil_of_strip text 10000 (by decide) hst
        obtain ⟨c0, crest, hcc⟩ : ∃ c0 crest, chunk_text text 10000 = c0 :: crest := by
          cases hc : chunk_text text 10000 with
          | nil => exact absurd hc hchunks
          | cons a l => exact ⟨a, l, rfl⟩
        have hflat : ((chunk_text text 10000).enum.map fun ic =>
            extract_events_from_chunk (env.llm ic.1) ic.2).flatten = [] := by
          have hperm := List.mergeSort_perm
            (((chunk_text text 10000).enum.map fun ic =>
              extract_events_from_chunk (env.llm ic.1) ic.2).flatten) eventLe
          unfold merge_and_sort_events at htl
          rw [htl] at hperm
          exact hperm.nil_eq.symm
        rw [hcc] at hflat
        have henum : (c0 :: crest).enum = (0, c0) :: crest.enumFrom 1 := rfl
        have hzero : extract_events_from_chunk (env.llm 0) c0 = [] := by
          have hmem : extract_events_from_chunk (env.llm 0) c0 ∈
              ((c0 :: crest).enum.map fun ic =>
                extract_events_from_chunk (env.llm ic.1) ic.2) := by
            rw [henum, List.map_cons]
            exact List.mem_cons_self _ _
          exact (List.flatten_eq_nil_iff.mp hflat) _ hmem
        exact extract_events_ne_nil (env.llm 0) c0 hzero
  · simp [process_document, hp] at htl

/-- Witness for C10: the backend-exception branch at a concrete chunk. -/
theorem claim_C10_never_empty_witness :
    extract_events_from_chunk GroqOutcome.apiError ['a'] ≠ [] :=
  claim_C10_never_empty.1 GroqOutcome.apiError ['a']
